import Mathlib

/-!
Verification of the `ddh` (Directory Difference hTool) deduplication pipeline
against its specification.

The repository's `src/` holds only `src/main.rs`, the CLI layer: argument
handling, the shared/unique partition of the returned records, and display
formatting.  The dedup engine itself (`ddh::deduplicate_dirs`,
`ddh::fileinfo::Fileinfo`) lives in the library crate whose sources are not
present; those parts are modelled from the specification (each such
definition says so in its doc comment).  The parts present in `main.rs`
(the partition on `get_paths().len() > 1`, the Blocksize handling in
`process_full_output`) are embedded from the source.
-/

namespace Ddh

/-- A filesystem path, as its list of components. -/
abbrev FsPath := List String

/-- Kinds of per-file errors.  Modelled from the spec §7: Path Access
Failure (unreadable metadata during traversal) and Read Failure During
Hashing. -/
inductive ErrKind where
  | metadataError
  | readError
deriving DecidableEq, Repr

/-- Modelled from the spec: the directory walker of the `ddh` library crate
is not under `src/`.  One regular file of the scanned tree, as the walker
and hasher observe it: its path, the byte length reported by metadata, its
byte content, whether metadata retrieval succeeds, and whether reading the
content during hashing succeeds. -/
structure FsFile where
  path : FsPath
  flen : Nat
  content : List Nat
  metaOk : Bool
  readOk : Bool
deriving DecidableEq, Repr

/-- Engine configuration: root paths, ignore paths, minimum size in bytes
(spec §4.1 / §6). -/
structure Config where
  roots : List FsPath
  ignores : List FsPath
  minSize : Nat
deriving DecidableEq, Repr

/-- Subtree-prefix matching: `p` lies under (or equals) some entry of `l`
(spec §4.1: "any directory whose resolved path falls under an ignore entry
(subtree-prefix match) is skipped entirely"). -/
def underAny (l : List FsPath) (p : FsPath) : Bool :=
  l.any (fun d => d.isPrefixOf p)

/-- A path is in scope of the traversal when it is under some root and not
under any ignore entry. -/
def inScope (cfg : Config) (p : FsPath) : Bool :=
  underAny cfg.roots p && !underAny cfg.ignores p

/-- Modelled from the spec §4.1 (directory walker, absent from `src/`):
the candidates are the in-scope files whose metadata is retrievable and
whose size is at least the configured minimum; smaller files are dropped
silently. -/
def candidates (cfg : Config) (fs : List FsFile) : List FsFile :=
  fs.filter (fun f => inScope cfg f.path && f.metaOk && cfg.minSize ≤ f.flen)

/-- Modelled from the spec §4.1: in-scope files whose metadata cannot be
retrieved produce an error record and are skipped. -/
def walkErrors (cfg : Config) (fs : List FsFile) : List (FsPath × ErrKind) :=
  (fs.filter (fun f => inScope cfg f.path && !f.metaOk)).map
    (fun f => (f.path, ErrKind.metadataError))

/-- How many candidates share byte length `n` (the size of `n`'s size
bucket, spec §4.2). -/
def sizeCount (cs : List FsFile) (n : Nat) : Nat :=
  cs.countP (fun f => f.flen == n)

/-- Candidates alone in their size bucket (spec §4.3: such buckets skip
hashing entirely). -/
def sizeSingles (cs : List FsFile) : List FsFile :=
  cs.filter (fun f => sizeCount cs f.flen == 1)

/-- Candidates whose size bucket has two or more members; exactly these are
handed to the content hasher (spec §4.3). -/
def multis (cs : List FsFile) : List FsFile :=
  cs.filter (fun f => 2 ≤ sizeCount cs f.flen)

/-- The paths on which the content hasher is invoked. -/
def hashedPaths (cs : List FsFile) : List FsPath :=
  (multis cs).map FsFile.path

/-- Modelled from the spec §4.3: a strong, collision-resistant full-content
digest, modelled as an injective function of the byte stream (the identity),
so that equal digests coincide with equal contents. -/
def hashContent (c : List Nat) : List Nat := c

/-- Modelled from the spec §4.3: hashed candidates whose full read
succeeded. -/
def hashedOk (cs : List FsFile) : List FsFile :=
  (multis cs).filter (fun f => f.readOk)

/-- Modelled from the spec §4.3 / §7: a read failure partway through hashing
produces an error record for that path and excludes it from the merge
step. -/
def hashErrors (cs : List FsFile) : List (FsPath × ErrKind) :=
  ((multis cs).filter (fun f => !f.readOk)).map
    (fun f => (f.path, ErrKind.readError))

/-- The dedup engine's deterministic merge key `(length, hash)`
(spec §4.4). -/
def mergeKey (f : FsFile) : Nat × List Nat :=
  (f.flen, hashContent f.content)

/-- One content-identity record: a distinct file content with its byte
length and the list of owning paths.  Modelled from the spec §3
(`ddh::fileinfo::Fileinfo` is not under `src/`); only the attributes the
claims touch are modelled. -/
structure Fileinfo where
  file_length : Nat
  file_paths : List FsPath
deriving DecidableEq, Repr

/-- Accessor mirroring `Fileinfo::get_paths`. -/
def Fileinfo.get_paths (fi : Fileinfo) : List FsPath := fi.file_paths

/-- Accessor mirroring `Fileinfo::get_length`. -/
def Fileinfo.get_length (fi : Fileinfo) : Nat := fi.file_length

/-- Modelled from the spec §4.3: a bucket with exactly one member directly
yields a singleton content-identity record, no hashing. -/
def singletonRecords (cs : List FsFile) : List Fileinfo :=
  (sizeSingles cs).map (fun f => ⟨f.flen, [f.path]⟩)

/-- The distinct merge keys of the successfully hashed candidates, first
occurrence first (spec §4.4: at most one record per distinct content). -/
def dedupKeys (cs : List FsFile) : List (Nat × List Nat) :=
  ((hashedOk cs).map mergeKey).dedup

/-- Modelled from the spec §4.4: the record for one merge key gathers, in
discovery order, every successfully hashed path sharing that key. -/
def keyRecord (cs : List FsFile) (k : Nat × List Nat) : Fileinfo :=
  ⟨k.1, ((hashedOk cs).filter (fun f => mergeKey f == k)).map FsFile.path⟩

/-- Records produced by the merge step for multi-member size buckets. -/
def dedupRecords (cs : List FsFile) : List Fileinfo :=
  (dedupKeys cs).map (keyRecord cs)

/-- Modelled from the spec §4.4: the full content-identity collection,
singleton-by-size records plus one record per distinct merge key. -/
def mergeRecords (cs : List FsFile) : List Fileinfo :=
  singletonRecords cs ++ dedupRecords cs

/-- Modelled from the spec §2 / §6: `ddh::deduplicate_dirs` (absent from
`src/`) returns the content-identity collection and the collected per-file
error records. -/
def deduplicate_dirs (cfg : Config) (fs : List FsFile) :
    List Fileinfo × List (FsPath × ErrKind) :=
  (mergeRecords (candidates cfg fs),
   walkErrors cfg fs ++ hashErrors (candidates cfg fs))

/-- The shared/unique partition performed in `main` (src/main.rs:97-99):
`complete_files.par_iter().partition(|&x| x.get_paths().len() > 1)`;
first component `shared_files`, second `unique_files`. -/
def partition_files (complete : List Fileinfo) : List Fileinfo × List Fileinfo :=
  complete.partition (fun x => 1 < x.get_paths.length)

/-- Accumulate decimal digits; any non-digit character fails. -/
def parseNatAux : List Char → Nat → Option Nat
  | [], acc => some acc
  | c :: cs, acc =>
    if c.isDigit then parseNatAux cs (acc * 10 + (c.toNat - 48)) else none

/-- Modelled from Rust's `str::parse::<u64>` used by the `Minimum` argument
validator (src/main.rs:78): an optional leading `+` sign followed by one or
more decimal digits denoting a value that fits in 64 bits, otherwise
failure (`u64::from_str` accepts `+` but not `-`, and needs at least one
digit). -/
def rust_parse_u64 (s : String) : Option Nat :=
  match s.data with
  | [] => none
  | c :: cs =>
    match if c = '+' then cs else c :: cs with
    | [] => none
    | ds =>
      match parseNatAux ds 0 with
      | some n => if n < 2 ^ 64 then some n else none
      | none => none

/-- Configuration failures (spec §7): invalid minimum size, or a root
directory that does not exist or is unreadable. -/
inductive ConfigError where
  | invalidMinimum
  | unreadableRoot
deriving DecidableEq, Repr

/-- Modelled from the spec §4.1 / §7: the scanned filesystem, as the set of
directories that exist and are readable plus the regular files. -/
structure Filesystem where
  okDirs : List FsPath
  files : List FsFile

/-- All roots exist and are readable. -/
def roots_ok (okDirs : List FsPath) (roots : List FsPath) : Bool :=
  roots.all (fun r => okDirs.contains r)

/-- Modelled from the spec §7: a full invocation.  An invalid minimum-size
argument fails at validation (src/main.rs:78, a clap validator, aborts the
invocation); a root that does not exist or is unreadable fails the
invocation before any traversal begins; otherwise the engine runs to
completion and returns both sequences. -/
def run_invocation (roots ignores : List FsPath) (minArg : String)
    (fsys : Filesystem) :
    Except ConfigError (List Fileinfo × List (FsPath × ErrKind)) :=
  match rust_parse_u64 minArg with
  | none => Except.error ConfigError.invalidMinimum
  | some m =>
    if roots_ok fsys.okDirs roots then
      Except.ok (deduplicate_dirs ⟨roots, ignores, m⟩ fsys.files)
    else
      Except.error ConfigError.unreadableRoot

/-- The Blocksize label selection in `process_full_output`
(src/main.rs:116-122): the argument value, defaulted to the empty string,
selects the unit label; anything else falls through to "Megabytes". -/
def blocksize_label (arg : Option String) : String :=
  match arg.getD "" with
  | "B" => "Bytes"
  | "K" => "Kilobytes"
  | "M" => "Megabytes"
  | "G" => "Gigabytes"
  | _ => "Megabytes"

/-- The display power selection (src/main.rs:123-129). -/
def display_power (b : String) : Nat :=
  match b with
  | "Bytes" => 0
  | "Kilobytes" => 1
  | "Megabytes" => 2
  | "Gigabytes" => 3
  | _ => 2

/-- The display divisor `1024u64.pow(display_power)` (src/main.rs:130). -/
def display_divisor (arg : Option String) : Nat :=
  1024 ^ display_power (blocksize_label arg)

/-- The help text of the Blocksize argument (src/main.rs:51). -/
def blocksize_help : String :=
  "Sets the display blocksize to Bytes, Kilobytes, Megabytes or Gigabytes. Default is Kilobytes."

/-- The first displayed size total (src/main.rs:143-155): total length with
duplicates, divided by the display divisor. -/
def displayed_total_with_dup (complete : List Fileinfo) (arg : Option String) : Nat :=
  (complete.map (fun x => x.get_paths.length * x.get_length)).sum / display_divisor arg

/-- The second displayed size total (src/main.rs:156-165): total length
without duplicates, divided by the display divisor. -/
def displayed_total_without_dup (complete : List Fileinfo) (arg : Option String) : Nat :=
  (complete.map (fun x => x.get_length)).sum / display_divisor arg

/-- No two files of a scanned tree share a path. -/
@[reducible] def PathsNodup (l : List FsFile) : Prop := (l.map FsFile.path).Nodup

theorem candidates_sublist (cfg : Config) (fs : List FsFile) :
    (candidates cfg fs).Sublist fs :=
  List.filter_sublist fs

theorem sizeSingles_sublist (cs : List FsFile) : (sizeSingles cs).Sublist cs :=
  List.filter_sublist cs

theorem multis_sublist (cs : List FsFile) : (multis cs).Sublist cs :=
  List.filter_sublist cs

theorem hashedOk_sublist (cs : List FsFile) : (hashedOk cs).Sublist cs :=
  (List.filter_sublist (multis cs)).trans (multis_sublist cs)

theorem pathsNodup_sublist {l₁ l₂ : List FsFile} (h : l₁.Sublist l₂)
    (hnd : PathsNodup l₂) : PathsNodup l₁ :=
  List.Nodup.sublist (h.map FsFile.path) hnd

theorem path_inj {l : List FsFile} (hnd : PathsNodup l) {f g : FsFile}
    (hf : f ∈ l) (hg : g ∈ l) (h : f.path = g.path) : f = g :=
  List.inj_on_of_nodup_map hnd hf hg h

theorem mem_candidates {cfg : Config} {fs : List FsFile} {f : FsFile} :
    f ∈ candidates cfg fs ↔
      f ∈ fs ∧ inScope cfg f.path = true ∧ f.metaOk = true ∧ cfg.minSize ≤ f.flen := by
  simp [candidates, List.mem_filter, and_assoc]

theorem mem_sizeSingles {cs : List FsFile} {f : FsFile} :
    f ∈ sizeSingles cs ↔ f ∈ cs ∧ sizeCount cs f.flen = 1 := by
  simp [sizeSingles, List.mem_filter]

theorem mem_multis {cs : List FsFile} {f : FsFile} :
    f ∈ multis cs ↔ f ∈ cs ∧ 2 ≤ sizeCount cs f.flen := by
  simp [multis, List.mem_filter]

theorem mem_hashedOk {cs : List FsFile} {f : FsFile} :
    f ∈ hashedOk cs ↔ f ∈ cs ∧ 2 ≤ sizeCount cs f.flen ∧ f.readOk = true := by
  simp [hashedOk, List.mem_filter, mem_multis, and_assoc]

theorem mem_dedupKeys {cs : List FsFile} {k : Nat × List Nat} :
    k ∈ dedupKeys cs ↔ ∃ f ∈ hashedOk cs, mergeKey f = k := by
  simp [dedupKeys, List.mem_dedup, List.mem_map]

theorem mem_keyRecord_paths {cs : List FsFile} {k : Nat × List Nat} {p : FsPath} :
    p ∈ (keyRecord cs k).file_paths ↔
      ∃ f ∈ hashedOk cs, mergeKey f = k ∧ f.path = p := by
  simp [keyRecord, List.mem_map, List.mem_filter, and_assoc]

theorem mem_walkErrors {cfg : Config} {fs : List FsFile} {e : FsPath × ErrKind} :
    e ∈ walkErrors cfg fs ↔
      ∃ f ∈ fs, inScope cfg f.path = true ∧ f.metaOk = false ∧
        e = (f.path, ErrKind.metadataError) := by
  constructor
  · intro h
    rcases List.mem_map.mp h with ⟨f, hf, rfl⟩
    rcases List.mem_filter.mp hf with ⟨hmem, hcond⟩
    simp only [Bool.and_eq_true, Bool.not_eq_true'] at hcond
    exact ⟨f, hmem, hcond.1, hcond.2, rfl⟩
  · rintro ⟨f, hmem, h1, h2, rfl⟩
    exact List.mem_map.mpr ⟨f, List.mem_filter.mpr ⟨hmem, by simp [h1, h2]⟩, rfl⟩

theorem mem_hashErrors {cs : List FsFile} {e : FsPath × ErrKind} :
    e ∈ hashErrors cs ↔
      ∃ f ∈ multis cs, f.readOk = false ∧ e = (f.path, ErrKind.readError) := by
  constructor
  · intro h
    rcases List.mem_map.mp h with ⟨f, hf, rfl⟩
    rcases List.mem_filter.mp hf with ⟨hmem, hcond⟩
    simp only [Bool.not_eq_true'] at hcond
    exact ⟨f, hmem, hcond, rfl⟩
  · rintro ⟨f, hmem, h1, rfl⟩
    exact List.mem_map.mpr ⟨f, List.mem_filter.mpr ⟨hmem, by simp [h1]⟩, rfl⟩

theorem record_path_origin {cs : List FsFile} {r : Fileinfo}
    (hr : r ∈ mergeRecords cs) {p : FsPath} (hp : p ∈ r.file_paths) :
    ∃ f ∈ cs, f.path = p ∧ f.flen = r.file_length := by
  rcases List.mem_append.mp hr with h | h
  · rcases List.mem_map.mp h with ⟨f, hf, rfl⟩
    have hp1 : p = f.path := by simpa using hp
    exact ⟨f, (sizeSingles_sublist cs).subset hf, hp1.symm, rfl⟩
  · rcases List.mem_map.mp h with ⟨k, _, rfl⟩
    rcases mem_keyRecord_paths.mp hp with ⟨f, hf, hk, hfp⟩
    exact ⟨f, (hashedOk_sublist cs).subset hf, hfp,
      by simp [keyRecord, ← hk, mergeKey]⟩

theorem countP_eq_one_of {α : Type} (p : α → Bool) (a : α) :
    ∀ l : List α, l.Nodup → a ∈ l → p a = true →
      (∀ b ∈ l, p b = true → b = a) → l.countP p = 1 := by
  intro l
  induction l with
  | nil => intro _ ha; simp at ha
  | cons b t ih =>
    intro hnd ha hpa huniq
    rcases List.nodup_cons.mp hnd with ⟨hbt, hndt⟩
    rw [List.countP_cons]
    by_cases hpb : p b = true
    · have hba : b = a := huniq b (List.mem_cons_self b t) hpb
      have ht0 : t.countP p = 0 := by
        rw [List.countP_eq_zero]
        intro c hc hpc
        have hca : c = a := huniq c (List.mem_cons_of_mem b hc) hpc
        exact absurd (by rw [hba, ← hca]; exact hc) hbt
      simp [hpb, ht0]
    · have hat : a ∈ t := by
        rcases List.mem_cons.mp ha with h | h
        · exact absurd (h ▸ hpa) hpb
        · exact h
      have ht1 := ih hndt hat hpa
        (fun c hc hpc => huniq c (List.mem_cons_of_mem b hc) hpc)
      simp [hpb, ht1]

/-- Claim C10: when no Blocksize argument is supplied (or an unrecognized
value reaches the match), every displayed size total is divided by 1024^2
and labeled "Megabytes", although the CLI help text states the default is
Kilobytes; and the divisor is 1024^p with p = 0, 1, 2, 3 exactly for the
arguments B, K, M, G. -/
theorem claim_C10 :
    blocksize_label none = "Megabytes" ∧
    display_divisor none = 1024 ^ 2 ∧
    blocksize_label (some "kilobytes") = "Megabytes" ∧
    display_divisor (some "kilobytes") = 1024 ^ 2 ∧
    display_divisor (some "B") = 1024 ^ 0 ∧
    display_divisor (some "K") = 1024 ^ 1 ∧
    display_divisor (some "M") = 1024 ^ 2 ∧
    display_divisor (some "G") = 1024 ^ 3 ∧
    (∀ complete : List Fileinfo,
      displayed_total_with_dup complete none =
        (complete.map (fun x => x.get_paths.length * x.get_length)).sum / 1024 ^ 2 ∧
      displayed_total_without_dup complete none =
        (complete.map (fun x => x.get_length)).sum / 1024 ^ 2) ∧
    blocksize_help =
      "Sets the display blocksize to Bytes, Kilobytes, Megabytes or Gigabytes. " ++
        "Default is Kilobytes." := by
  exact ⟨rfl, rfl, rfl, rfl, rfl, rfl, rfl, rfl, fun complete => ⟨rfl, rfl⟩, rfl⟩

/-- Claim C2: partitioning the final record collection puts every record
with exactly one path into the unique subset and every record with two or
more paths into the shared subset; the two subsets are disjoint and their
union is the full collection. -/
theorem claim_C2 (complete : List Fileinfo) :
    (∀ r ∈ complete, r.get_paths.length = 1 → r ∈ (partition_files complete).2) ∧
    (∀ r ∈ complete, 2 ≤ r.get_paths.length → r ∈ (partition_files complete).1) ∧
    (∀ r : Fileinfo,
      ¬(r ∈ (partition_files complete).1 ∧ r ∈ (partition_files complete).2)) ∧
    ((partition_files complete).1 ++ (partition_files complete).2).Perm complete := by
  simp only [partition_files, List.partition_eq_filter_filter]
  refine ⟨?_, ?_, ?_, ?_⟩
  · intro r hr h1
    refine List.mem_filter.mpr ⟨hr, ?_⟩
    simp [Function.comp, h1]
  · intro r hr h2
    refine List.mem_filter.mpr ⟨hr, ?_⟩
    simpa using h2
  · rintro r ⟨h1, h2⟩
    have b1 := (List.mem_filter.mp h1).2
    have b2 := (List.mem_filter.mp h2).2
    simp [Function.comp] at b1 b2
    omega
  · exact List.filter_append_perm _ complete

/-- Witness for C2 at a concrete collection: a two-path record lands in the
shared subset and a one-path record in the unique subset. -/
theorem claim_C2_witness :
    (⟨3, [["A", "x"], ["A", "y"]]⟩ : Fileinfo) ∈
      (partition_files [⟨3, [["A", "x"], ["A", "y"]]⟩, ⟨4, [["A", "z"]]⟩]).1 ∧
    (⟨4, [["A", "z"]]⟩ : Fileinfo) ∈
      (partition_files [⟨3, [["A", "x"], ["A", "y"]]⟩, ⟨4, [["A", "z"]]⟩]).2 :=
  ⟨(claim_C2 [⟨3, [["A", "x"], ["A", "y"]]⟩, ⟨4, [["A", "z"]]⟩]).2.1 _
      (by decide) (by decide),
   (claim_C2 [⟨3, [["A", "x"], ["A", "y"]]⟩, ⟨4, [["A", "z"]]⟩]).1 _
      (by decide) (by decide)⟩

/-- Claim C5: no returned record's length is below the configured minimum
size, and a file dropped for being below the minimum produces no error
record. -/
theorem claim_C5 (cfg : Config) (fs : List FsFile) (hnd : PathsNodup fs) :
    (∀ r ∈ (deduplicate_dirs cfg fs).1, cfg.minSize ≤ r.file_length) ∧
    (∀ f ∈ fs, f.metaOk = true → f.flen < cfg.minSize →
      ∀ e ∈ (deduplicate_dirs cfg fs).2, e.1 ≠ f.path) := by
  constructor
  · intro r hr
    have hr' : r ∈ singletonRecords (candidates cfg fs) ++
        dedupRecords (candidates cfg fs) := hr
    rcases List.mem_append.mp hr' with h | h
    · rcases List.mem_map.mp h with ⟨g, hg, rfl⟩
      exact (mem_candidates.mp (mem_sizeSingles.mp hg).1).2.2.2
    · rcases List.mem_map.mp h with ⟨k, hk, rfl⟩
      rcases mem_dedupKeys.mp hk with ⟨g, hg, hgk⟩
      have hmin := (mem_candidates.mp (mem_hashedOk.mp hg).1).2.2.2
      have hlen : (keyRecord (candidates cfg fs) k).file_length = g.flen := by
        simp [keyRecord, ← hgk, mergeKey]
      omega
  · intro f hf hmeta hsize e he hep
    have he' : e ∈ walkErrors cfg fs ++ hashErrors (candidates cfg fs) := he
    rcases List.mem_append.mp he' with h | h
    · rcases mem_walkErrors.mp h with ⟨g, hg, _, hgmeta, rfl⟩
      have hgf : g = f := path_inj hnd hg hf hep
      rw [hgf, hmeta] at hgmeta
      exact Bool.noConfusion hgmeta
    · rcases mem_hashErrors.mp h with ⟨g, hg, _, rfl⟩
      have hgc : g ∈ candidates cfg fs := (multis_sublist _).subset hg
      have hgfs : g ∈ fs := (candidates_sublist cfg fs).subset hgc
      have hgf : g = f := path_inj hnd hgfs hf hep
      have hmin := (mem_candidates.mp hgc).2.2.2
      rw [hgf] at hmin
      omega

/-- Witness for C5: two identical 3-byte files under root A with minimum
size 1 yield a record of length 3, which is at least 1. -/
theorem claim_C5_witness :
    PathsNodup [⟨["A", "x"], 3, [7, 7, 7], true, true⟩,
                ⟨["A", "y"], 3, [7, 7, 7], true, true⟩] ∧
    (1 : Nat) ≤ (Fileinfo.mk 3 [["A", "x"], ["A", "y"]]).file_length :=
  ⟨by decide,
   (claim_C5 ⟨[["A"]], [], 1⟩
      [⟨["A", "x"], 3, [7, 7, 7], true, true⟩,
       ⟨["A", "y"], 3, [7, 7, 7], true, true⟩] (by decide)).1 _ (by decide)⟩

/-- Claim C6: no path lying under an ignore-list entry (subtree-prefix
match) appears in any returned content-identity record or error record. -/
theorem claim_C6 (cfg : Config) (fs : List FsFile) (p : FsPath)
    (hp : underAny cfg.ignores p = true) :
    (∀ r ∈ (deduplicate_dirs cfg fs).1, p ∉ r.file_paths) ∧
    (∀ e ∈ (deduplicate_dirs cfg fs).2, e.1 ≠ p) := by
  have hscope : ∀ q : FsPath, inScope cfg q = true → q ≠ p := by
    intro q hq hqp
    simp only [inScope, Bool.and_eq_true, Bool.not_eq_true'] at hq
    rw [hqp, hp] at hq
    exact Bool.noConfusion hq.2
  constructor
  · intro r hr hmem
    have hr' : r ∈ mergeRecords (candidates cfg fs) := hr
    rcases record_path_origin hr' hmem with ⟨f, hf, hfp, _⟩
    exact hscope f.path (mem_candidates.mp hf).2.1 hfp
  · intro e he
    have he' : e ∈ walkErrors cfg fs ++ hashErrors (candidates cfg fs) := he
    rcases List.mem_append.mp he' with h | h
    · rcases mem_walkErrors.mp h with ⟨f, _, hfsc, _, rfl⟩
      exact hscope f.path hfsc
    · rcases mem_hashErrors.mp h with ⟨f, hf, _, rfl⟩
      exact hscope f.path
        (mem_candidates.mp ((multis_sublist _).subset hf)).2.1

/-- Witness for C6: with ignore entry A/s, the ignored path A/s/x is absent
from the record produced for the non-ignored file A/y. -/
theorem claim_C6_witness :
    underAny [["A", "s"]] ["A", "s", "x"] = true ∧
    (["A", "s", "x"] : FsPath) ∉ (Fileinfo.mk 3 [["A", "y"]]).file_paths :=
  ⟨by decide,
   (claim_C6 ⟨[["A"]], [["A", "s"]], 0⟩
      [⟨["A", "s", "x"], 3, [1, 2, 3], true, true⟩,
       ⟨["A", "y"], 3, [1, 2, 3], true, true⟩]
      ["A", "s", "x"] (by decide)).1 _ (by decide)⟩

/-- Claim C9: an invalid minimum-size argument, or a root directory that
does not exist or is unreadable, fails the entire invocation before any
traversal begins, returning no per-file records at all. -/
theorem claim_C9 (roots ignores : List FsPath) (minArg : String)
    (fsys : Filesystem)
    (h : rust_parse_u64 minArg = none ∨ roots_ok fsys.okDirs roots = false) :
    (run_invocation roots ignores minArg fsys).isOk = false := by
  rcases h with h | h
  · simp [run_invocation, h, Except.isOk, Except.toBool]
  · cases hm : rust_parse_u64 minArg with
    | none => simp [run_invocation, hm, Except.isOk, Except.toBool]
    | some m => simp [run_invocation, hm, h, Except.isOk, Except.toBool]

theorem flen_eq_of_key {f : FsFile} {k : Nat × List Nat}
    (h : mergeKey f = k) : f.flen = k.1 := by
  rw [← h]; rfl

theorem sizeCount_ge_of_key (cs : List FsFile) (k : Nat × List Nat)
    (h2 : 2 ≤ (cs.filter (fun f => mergeKey f == k)).length) :
    ∀ f : FsFile, mergeKey f = k → 2 ≤ sizeCount cs f.flen := by
  intro f hk
  have hlen : (cs.filter (fun f => mergeKey f == k)).length =
      cs.countP (fun f => mergeKey f == k) :=
    (List.countP_eq_length_filter _ _).symm
  have hmono : cs.countP (fun f => mergeKey f == k) ≤
      cs.countP (fun g => g.flen == k.1) := by
    apply List.countP_mono_left
    intro g _ hg
    have hgk : mergeKey g = k := by simpa using hg
    simpa using flen_eq_of_key hgk
  rw [sizeCount, flen_eq_of_key hk]
  omega

theorem hashedOk_filter_key (cs : List FsFile) (k : Nat × List Nat)
    (h2 : 2 ≤ (cs.filter (fun f => mergeKey f == k)).length)
    (hrd : ∀ f ∈ cs, mergeKey f = k → f.readOk = true) :
    (hashedOk cs).filter (fun f => mergeKey f == k) =
      cs.filter (fun f => mergeKey f == k) := by
  rw [hashedOk, multis, List.filter_filter, List.filter_filter]
  apply List.filter_congr
  intro f hf
  by_cases hk : mergeKey f = k
  · have hb : (mergeKey f == k) = true := by simpa using hk
    have hro : f.readOk = true := hrd f hf hk
    have hsc : 2 ≤ sizeCount cs f.flen := sizeCount_ge_of_key cs k h2 f hk
    simp [hb, hro, hsc]
  · have hb : (mergeKey f == k) = false := by simpa using hk
    simp [hb]

/-- Claim C1: for every set of two or more candidates with identical byte
length and identical byte content (all of which read successfully), the
returned collection contains exactly one record whose path list is exactly
that set of paths, and no distinct content yields more than one record
(the merge-key list is duplicate-free). -/
theorem claim_C1 (cfg : Config) (fs : List FsFile) (hnd : PathsNodup fs)
    (k : Nat × List Nat)
    (h2 : 2 ≤ ((candidates cfg fs).filter (fun f => mergeKey f == k)).length)
    (hrd : ∀ f ∈ candidates cfg fs, mergeKey f = k → f.readOk = true) :
    ((deduplicate_dirs cfg fs).1.countP (fun r => r.file_paths ==
      ((candidates cfg fs).filter (fun f => mergeKey f == k)).map FsFile.path)) = 1 ∧
    (dedupKeys (candidates cfg fs)).Nodup := by
  constructor
  · set cs := candidates cfg fs with hcs
    set S := (cs.filter (fun f => mergeKey f == k)).map FsFile.path with hSdef
    have hndc : PathsNodup cs := pathsNodup_sublist (candidates_sublist cfg fs) hnd
    have hfeq := hashedOk_filter_key cs k h2 hrd
    have hSlen : 2 ≤ S.length := by rw [hSdef, List.length_map]; exact h2
    have hSne : S ≠ [] := by
      intro h
      rw [h] at hSlen
      simp at hSlen
    have hkmem : k ∈ dedupKeys cs := by
      have hpos : 0 < (cs.filter (fun f => mergeKey f == k)).length := by
        rw [← List.length_map _ FsFile.path, ← hSdef]
        omega
      rcases List.exists_mem_of_ne_nil _ (List.length_pos.mp hpos) with ⟨f, hf⟩
      have hfc := List.mem_filter.mp hf
      have hfk : mergeKey f = k := by simpa using hfc.2
      refine mem_dedupKeys.mpr ⟨f, ?_, hfk⟩
      have hmulti : 2 ≤ sizeCount cs f.flen := sizeCount_ge_of_key cs k h2 f hfk
      exact mem_hashedOk.mpr ⟨hfc.1, hmulti, hrd f hfc.1 hfk⟩
    have hr1 : (deduplicate_dirs cfg fs).1 = singletonRecords cs ++ dedupRecords cs := rfl
    rw [hr1, List.countP_append]
    have hsing : (singletonRecords cs).countP (fun r => r.file_paths == S) = 0 := by
      rw [List.countP_eq_zero]
      intro r hr hrS
      rcases List.mem_map.mp hr with ⟨g, _, rfl⟩
      have hgS : ([g.path] : List FsPath) = S := by simpa using hrS
      have hlen1 : S.length = 1 := by rw [← hgS]; rfl
      omega
    have hded : (dedupRecords cs).countP (fun r => r.file_paths == S) = 1 := by
      rw [dedupRecords, List.countP_map]
      apply countP_eq_one_of _ k _ (List.nodup_dedup _) hkmem
      · show ((keyRecord cs k).file_paths == S) = true
        have hpk : (keyRecord cs k).file_paths = S := by
          show ((hashedOk cs).filter (fun f => mergeKey f == k)).map FsFile.path = S
          rw [hfeq, hSdef]
        simpa using hpk
      · intro k' hk' hpk'
        have hpaths : (keyRecord cs k').file_paths = S := by simpa using hpk'
        rcases List.exists_mem_of_ne_nil S hSne with ⟨p, hp⟩
        have hpS := hp
        rw [hSdef] at hpS
        rcases List.mem_map.mp hpS with ⟨f, hf, rfl⟩
        have hfc := List.mem_filter.mp hf
        have hfk : mergeKey f = k := by simpa using hfc.2
        have hp' : f.path ∈ (keyRecord cs k').file_paths := by
          rw [hpaths]; exact hp
        rcases mem_keyRecord_paths.mp hp' with ⟨g, hg, hgk, hgp⟩
        have hgf : g = f :=
          path_inj hndc ((hashedOk_sublist cs).subset hg) hfc.1 hgp
        rw [← hgk, hgf, hfk]
    omega
  · exact List.nodup_dedup _

/-- Witness for C1: two identical 3-byte files yield exactly one record
listing both paths. -/
theorem claim_C1_witness :
    PathsNodup [⟨["A", "x"], 3, [7, 7, 7], true, true⟩,
                ⟨["A", "y"], 3, [7, 7, 7], true, true⟩] ∧
    2 ≤ ((candidates ⟨[["A"]], [], 0⟩
        [⟨["A", "x"], 3, [7, 7, 7], true, true⟩,
         ⟨["A", "y"], 3, [7, 7, 7], true, true⟩]).filter
      (fun f => mergeKey f == (3, [7, 7, 7]))).length ∧
    ((deduplicate_dirs ⟨[["A"]], [], 0⟩
        [⟨["A", "x"], 3, [7, 7, 7], true, true⟩,
         ⟨["A", "y"], 3, [7, 7, 7], true, true⟩]).1.countP
      (fun r => r.file_paths ==
        ((candidates ⟨[["A"]], [], 0⟩
            [⟨["A", "x"], 3, [7, 7, 7], true, true⟩,
             ⟨["A", "y"], 3, [7, 7, 7], true, true⟩]).filter
          (fun f => mergeKey f == (3, [7, 7, 7]))).map FsFile.path)) = 1 :=
  ⟨by decide, by decide,
   (claim_C1 ⟨[["A"]], [], 0⟩
      [⟨["A", "x"], 3, [7, 7, 7], true, true⟩,
       ⟨["A", "y"], 3, [7, 7, 7], true, true⟩]
      (by decide) (3, [7, 7, 7]) (by decide) (by decide)).1⟩

/-- Claim C3: a candidate whose byte length is unique among all candidates
yields a singleton record, and the content hasher is never invoked on its
path. -/
theorem claim_C3 (cfg : Config) (fs : List FsFile) (hnd : PathsNodup fs)
    (f : FsFile) (hf : f ∈ candidates cfg fs)
    (huniq : sizeCount (candidates cfg fs) f.flen = 1) :
    (⟨f.flen, [f.path]⟩ : Fileinfo) ∈ (deduplicate_dirs cfg fs).1 ∧
    f.path ∉ hashedPaths (candidates cfg fs) := by
  constructor
  · have hfs : f ∈ sizeSingles (candidates cfg fs) :=
      mem_sizeSingles.mpr ⟨hf, huniq⟩
    have hmem : (⟨f.flen, [f.path]⟩ : Fileinfo) ∈
        singletonRecords (candidates cfg fs) :=
      List.mem_map.mpr ⟨f, hfs, rfl⟩
    exact List.mem_append.mpr (Or.inl hmem)
  · intro hmem
    rcases List.mem_map.mp hmem with ⟨g, hg, hgp⟩
    have hgc : g ∈ candidates cfg fs := (multis_sublist _).subset hg
    have hndc : PathsNodup (candidates cfg fs) :=
      pathsNodup_sublist (candidates_sublist cfg fs) hnd
    have hgf : g = f := path_inj hndc hgc hf hgp
    have h2 := (mem_multis.mp hg).2
    rw [hgf] at h2
    omega

/-- Witness for C3: a lone 3-byte file is its own singleton record and its
path is never hashed. -/
theorem claim_C3_witness :
    PathsNodup [(⟨["A", "x"], 3, [1, 2, 3], true, true⟩ : FsFile)] ∧
    (⟨["A", "x"], 3, [1, 2, 3], true, true⟩ : FsFile) ∈
      candidates ⟨[["A"]], [], 0⟩ [⟨["A", "x"], 3, [1, 2, 3], true, true⟩] ∧
    sizeCount
      (candidates ⟨[["A"]], [], 0⟩ [⟨["A", "x"], 3, [1, 2, 3], true, true⟩]) 3 = 1 ∧
    ((⟨3, [["A", "x"]]⟩ : Fileinfo) ∈
      (deduplicate_dirs ⟨[["A"]], [], 0⟩ [⟨["A", "x"], 3, [1, 2, 3], true, true⟩]).1 ∧
    ["A", "x"] ∉ hashedPaths
      (candidates ⟨[["A"]], [], 0⟩ [⟨["A", "x"], 3, [1, 2, 3], true, true⟩])) :=
  ⟨by decide, by decide, by decide,
   claim_C3 ⟨[["A"]], [], 0⟩ [⟨["A", "x"], 3, [1, 2, 3], true, true⟩]
     (by decide) ⟨["A", "x"], 3, [1, 2, 3], true, true⟩ (by decide) (by decide)⟩

/-- Claim C4: every path in a returned record belongs to a candidate with
the record's byte length; no record contains the paths of two candidates of
equal length but different content hash; and, when every candidate reads
successfully, each candidate's path appears in exactly one record. -/
theorem claim_C4 (cfg : Config) (fs : List FsFile) (hnd : PathsNodup fs)
    (hrd : ∀ f ∈ candidates cfg fs, f.readOk = true) :
    (∀ r ∈ (deduplicate_dirs cfg fs).1, ∀ p ∈ r.file_paths,
      ∃ f ∈ candidates cfg fs, f.path = p ∧ f.flen = r.file_length) ∧
    (∀ f ∈ candidates cfg fs, ∀ g ∈ candidates cfg fs,
      f.flen = g.flen → hashContent f.content ≠ hashContent g.content →
      ∀ r ∈ (deduplicate_dirs cfg fs).1,
        ¬(f.path ∈ r.file_paths ∧ g.path ∈ r.file_paths)) ∧
    (∀ f ∈ candidates cfg fs,
      (deduplicate_dirs cfg fs).1.countP
        (fun r => r.file_paths.contains f.path) = 1) := by
  have hndc : PathsNodup (candidates cfg fs) :=
    pathsNodup_sublist (candidates_sublist cfg fs) hnd
  refine ⟨?_, ?_, ?_⟩
  · intro r hr p hp
    exact record_path_origin hr hp
  · rintro f hf g hg hlen hcont r hr ⟨hfp, hgp⟩
    have hr' : r ∈ singletonRecords (candidates cfg fs) ++
        dedupRecords (candidates cfg fs) := hr
    rcases List.mem_append.mp hr' with h | h
    · rcases List.mem_map.mp h with ⟨a, _, rfl⟩
      have hfa : f.path = a.path := by simpa using hfp
      have hga : g.path = a.path := by simpa using hgp
      have hfg : f = g := path_inj hndc hf hg (hfa.trans hga.symm)
      exact hcont (by rw [hfg])
    · rcases List.mem_map.mp h with ⟨k, _, rfl⟩
      rcases mem_keyRecord_paths.mp hfp with ⟨f', hf', hf'k, hf'p⟩
      rcases mem_keyRecord_paths.mp hgp with ⟨g', hg', hg'k, hg'p⟩
      have hff : f' = f :=
        path_inj hndc ((hashedOk_sublist _).subset hf') hf hf'p
      have hgg : g' = g :=
        path_inj hndc ((hashedOk_sublist _).subset hg') hg hg'p
      have hk1 : mergeKey f = k := hff ▸ hf'k
      have hk2 : mergeKey g = k := hgg ▸ hg'k
      exact hcont (congrArg Prod.snd (hk1.trans hk2.symm))
  · intro f hf
    have hr1 : (deduplicate_dirs cfg fs).1 =
        singletonRecords (candidates cfg fs) ++
          dedupRecords (candidates cfg fs) := rfl
    rw [hr1, List.countP_append]
    by_cases hcase : sizeCount (candidates cfg fs) f.flen = 1
    · have hfs : f ∈ sizeSingles (candidates cfg fs) :=
        mem_sizeSingles.mpr ⟨hf, hcase⟩
      have hnds : (sizeSingles (candidates cfg fs)).Nodup :=
        List.Nodup.of_map FsFile.path
          (pathsNodup_sublist (sizeSingles_sublist _) hndc)
      have hsing : (singletonRecords (candidates cfg fs)).countP
          (fun r => r.file_paths.contains f.path) = 1 := by
        rw [singletonRecords, List.countP_map]
        apply countP_eq_one_of _ f _ hnds hfs
        · show (([f.path] : List FsPath).contains f.path) = true
          simp
        · intro b hb hpb
          have hbp : f.path ∈ ([b.path] : List FsPath) := by
            simpa [List.elem_iff] using hpb
          have hbp' : b.path = f.path := Eq.symm (by simpa using hbp)
          exact path_inj hndc ((sizeSingles_sublist _).subset hb) hf hbp'
      have hded0 : (dedupRecords (candidates cfg fs)).countP
          (fun r => r.file_paths.contains f.path) = 0 := by
        rw [List.countP_eq_zero]
        intro r hr hrp
        rcases List.mem_map.mp hr with ⟨k, _, rfl⟩
        have hpmem : f.path ∈ (keyRecord (candidates cfg fs) k).file_paths := by
          simpa [List.elem_iff] using hrp
        rcases mem_keyRecord_paths.mp hpmem with ⟨g, hg, _, hgp⟩
        have hgf : g = f :=
          path_inj hndc ((hashedOk_sublist _).subset hg) hf hgp
        have hgm : g ∈ multis (candidates cfg fs) := (List.mem_filter.mp hg).1
        have h2 := (mem_multis.mp hgm).2
        rw [hgf] at h2
        omega
      omega
    · have h1le : 1 ≤ sizeCount (candidates cfg fs) f.flen := by
        rw [sizeCount]
        have hpos : 0 < (candidates cfg fs).countP (fun g => g.flen == f.flen) :=
          List.countP_pos_iff.mpr ⟨f, hf, by simp⟩
        omega
      have h2 : 2 ≤ sizeCount (candidates cfg fs) f.flen := by omega
      have hfm : f ∈ multis (candidates cfg fs) := mem_multis.mpr ⟨hf, h2⟩
      have hfh : f ∈ hashedOk (candidates cfg fs) :=
        List.mem_filter.mpr ⟨hfm, by simp [hrd f hf]⟩
      have hsing0 : (singletonRecords (candidates cfg fs)).countP
          (fun r => r.file_paths.contains f.path) = 0 := by
        rw [List.countP_eq_zero]
        intro r hr hrp
        rcases List.mem_map.mp hr with ⟨a, ha, rfl⟩
        have hap : f.path ∈ ([a.path] : List FsPath) := by
          simpa [List.elem_iff] using hrp
        have hap' : a.path = f.path := Eq.symm (by simpa using hap)
        have haf : a = f :=
          path_inj hndc ((sizeSingles_sublist _).subset ha) hf hap'
        have h1 := (mem_sizeSingles.mp ha).2
        rw [haf] at h1
        omega
      have hded1 : (dedupRecords (candidates cfg fs)).countP
          (fun r => r.file_paths.contains f.path) = 1 := by
        rw [dedupRecords, List.countP_map]
        apply countP_eq_one_of _ (mergeKey f) _ (List.nodup_dedup _)
          (mem_dedupKeys.mpr ⟨f, hfh, rfl⟩)
        · show ((keyRecord (candidates cfg fs) (mergeKey f)).file_paths.contains
            f.path) = true
          have hpm : f.path ∈ (keyRecord (candidates cfg fs) (mergeKey f)).file_paths :=
            mem_keyRecord_paths.mpr ⟨f, hfh, rfl, rfl⟩
          simpa [List.elem_iff] using hpm
        · intro k' _ hpk'
          have hpmem : f.path ∈ (keyRecord (candidates cfg fs) k').file_paths := by
            simpa [List.elem_iff] using hpk'
          rcases mem_keyRecord_paths.mp hpmem with ⟨g, hg, hgk, hgp⟩
          have hgf : g = f :=
            path_inj hndc ((hashedOk_sublist _).subset hg) hf hgp
          rw [← hgk, hgf]
      omega

/-- Witness for C4: with two identical files and one odd-sized file out,
the odd file's path lies in exactly one record. -/
theorem claim_C4_witness :
    PathsNodup [⟨["A", "x"], 3, [7, 7, 7], true, true⟩,
                ⟨["A", "y"], 3, [7, 7, 7], true, true⟩,
                ⟨["A", "z"], 5, [1, 2, 3, 4, 5], true, true⟩] ∧
    ((deduplicate_dirs ⟨[["A"]], [], 0⟩
        [⟨["A", "x"], 3, [7, 7, 7], true, true⟩,
         ⟨["A", "y"], 3, [7, 7, 7], true, true⟩,
         ⟨["A", "z"], 5, [1, 2, 3, 4, 5], true, true⟩]).1.countP
      (fun r => r.file_paths.contains ["A", "z"])) = 1 :=
  ⟨by decide,
   (claim_C4 ⟨[["A"]], [], 0⟩
      [⟨["A", "x"], 3, [7, 7, 7], true, true⟩,
       ⟨["A", "y"], 3, [7, 7, 7], true, true⟩,
       ⟨["A", "z"], 5, [1, 2, 3, 4, 5], true, true⟩]
      (by decide) (by decide)).2.2
      ⟨["A", "z"], 5, [1, 2, 3, 4, 5], true, true⟩ (by decide)⟩

/-- A record with its path list viewed as a multiset: path insertion order
within a record may vary from run to run. -/
def normRec (r : Fileinfo) : Nat × Multiset FsPath :=
  (r.file_length, (r.file_paths : Multiset FsPath))

/-- Claim C7: runs over the same unchanged tree with the same inputs are
deterministic regardless of worker interleaving: however discovery order is
permuted, the resulting content-identity collections agree up to the
ordering of paths inside each record (and of the records themselves). -/
theorem claim_C7 (cfg : Config) (fs₁ fs₂ : List FsFile)
    (hperm : fs₁.Perm fs₂) :
    ((deduplicate_dirs cfg fs₁).1.map normRec).Perm
      ((deduplicate_dirs cfg fs₂).1.map normRec) := by
  have hc : (candidates cfg fs₁).Perm (candidates cfg fs₂) := hperm.filter _
  have hscfun : sizeCount (candidates cfg fs₁) = sizeCount (candidates cfg fs₂) :=
    funext (fun n => hc.countP_eq _)
  have hsingles : (sizeSingles (candidates cfg fs₁)).Perm
      (sizeSingles (candidates cfg fs₂)) := by
    rw [sizeSingles, sizeSingles, hscfun]
    exact hc.filter _
  have hmultis : (multis (candidates cfg fs₁)).Perm
      (multis (candidates cfg fs₂)) := by
    rw [multis, multis, hscfun]
    exact hc.filter _
  have hhok : (hashedOk (candidates cfg fs₁)).Perm
      (hashedOk (candidates cfg fs₂)) := by
    rw [hashedOk, hashedOk]
    exact hmultis.filter _
  have hkeys : (dedupKeys (candidates cfg fs₁)).Perm
      (dedupKeys (candidates cfg fs₂)) := by
    rw [dedupKeys, dedupKeys]
    exact (hhok.map _).dedup
  have hkr : ∀ k, normRec (keyRecord (candidates cfg fs₁) k) =
      normRec (keyRecord (candidates cfg fs₂) k) := by
    intro k
    simp only [normRec, keyRecord]
    exact congrArg (fun m => (k.1, m))
      (Multiset.coe_eq_coe.mpr ((hhok.filter _).map _))
  have h1 : (deduplicate_dirs cfg fs₁).1 =
      singletonRecords (candidates cfg fs₁) ++
        dedupRecords (candidates cfg fs₁) := rfl
  have h2 : (deduplicate_dirs cfg fs₂).1 =
      singletonRecords (candidates cfg fs₂) ++
        dedupRecords (candidates cfg fs₂) := rfl
  rw [h1, h2, List.map_append, List.map_append]
  apply List.Perm.append
  · rw [singletonRecords, singletonRecords, List.map_map, List.map_map]
    exact hsingles.map _
  · rw [dedupRecords, dedupRecords, List.map_map, List.map_map]
    have he : List.map (normRec ∘ keyRecord (candidates cfg fs₁))
        (dedupKeys (candidates cfg fs₁)) =
      List.map (normRec ∘ keyRecord (candidates cfg fs₂))
        (dedupKeys (candidates cfg fs₁)) :=
      List.map_congr_left (fun k _ => hkr k)
    rw [he]
    exact hkeys.map _

/-- Witness for C7: swapping the discovery order of two duplicate files
leaves the normalized record collection the same up to permutation. -/
theorem claim_C7_witness :
    ([⟨["A", "x"], 3, [7, 7, 7], true, true⟩,
      ⟨["A", "y"], 3, [7, 7, 7], true, true⟩] : List FsFile).Perm
      [⟨["A", "y"], 3, [7, 7, 7], true, true⟩,
       ⟨["A", "x"], 3, [7, 7, 7], true, true⟩] ∧
    ((deduplicate_dirs ⟨[["A"]], [], 0⟩
        [⟨["A", "x"], 3, [7, 7, 7], true, true⟩,
         ⟨["A", "y"], 3, [7, 7, 7], true, true⟩]).1.map normRec).Perm
      ((deduplicate_dirs ⟨[["A"]], [], 0⟩
          [⟨["A", "y"], 3, [7, 7, 7], true, true⟩,
           ⟨["A", "x"], 3, [7, 7, 7], true, true⟩]).1.map normRec) :=
  ⟨List.Perm.swap _ _ _,
   claim_C7 ⟨[["A"]], [], 0⟩ _ _ (List.Perm.swap _ _ _)⟩

theorem walkErrors_paths (cfg : Config) (fs : List FsFile) :
    (walkErrors cfg fs).map Prod.fst =
      (fs.filter (fun f => inScope cfg f.path && !f.metaOk)).map FsFile.path := by
  simp [walkErrors, List.map_map, Function.comp]

theorem hashErrors_paths (cs : List FsFile) :
    (hashErrors cs).map Prod.fst =
      ((multis cs).filter (fun f => !f.readOk)).map FsFile.path := by
  simp [hashErrors, List.map_map, Function.comp]

/-- Claim C8: per-file faults are never raised as run-level failures: with
a valid configuration the invocation completes and returns both sequences;
each failing path is reported exactly once; and even when every candidate
fails to read, the collection holds only singleton-by-size records while
every multi-bucket candidate's path lands in the error list. -/
theorem claim_C8 (roots ignores : List FsPath) (minArg : String) (m : Nat)
    (fsys : Filesystem) (hm : rust_parse_u64 minArg = some m)
    (hroots : roots_ok fsys.okDirs roots = true) (hnd : PathsNodup fsys.files) :
    run_invocation roots ignores minArg fsys =
      Except.ok (deduplicate_dirs ⟨roots, ignores, m⟩ fsys.files) ∧
    ((deduplicate_dirs ⟨roots, ignores, m⟩ fsys.files).2.map Prod.fst).Nodup ∧
    ((∀ f ∈ candidates ⟨roots, ignores, m⟩ fsys.files, f.readOk = false) →
      (∀ r ∈ (deduplicate_dirs ⟨roots, ignores, m⟩ fsys.files).1,
        r.file_paths.length = 1) ∧
      (∀ f ∈ multis (candidates ⟨roots, ignores, m⟩ fsys.files),
        f.path ∈ (deduplicate_dirs ⟨roots, ignores, m⟩ fsys.files).2.map Prod.fst)) := by
  refine ⟨by simp [run_invocation, hm, hroots], ?_, ?_⟩
  · have heq : (deduplicate_dirs ⟨roots, ignores, m⟩ fsys.files).2.map Prod.fst =
        (walkErrors ⟨roots, ignores, m⟩ fsys.files).map Prod.fst ++
          (hashErrors (candidates ⟨roots, ignores, m⟩ fsys.files)).map Prod.fst := by
      simp [deduplicate_dirs]
    rw [heq, List.nodup_append, walkErrors_paths, hashErrors_paths]
    refine ⟨?_, ?_, ?_⟩
    · exact List.Nodup.sublist
        ((List.filter_sublist fsys.files).map FsFile.path) hnd
    · exact List.Nodup.sublist
        (((List.filter_sublist _).trans
          ((multis_sublist _).trans (candidates_sublist _ _))).map FsFile.path) hnd
    · intro p hp hq
      rcases List.mem_map.mp hp with ⟨f, hf, rfl⟩
      rcases List.mem_map.mp hq with ⟨g, hg, hgp⟩
      have hffs : f ∈ fsys.files := (List.filter_sublist _).subset hf
      have hgc : g ∈ candidates ⟨roots, ignores, m⟩ fsys.files :=
        (multis_sublist _).subset ((List.filter_sublist _).subset hg)
      have hgfs : g ∈ fsys.files := (candidates_sublist _ _).subset hgc
      have hgf : g = f := path_inj hnd hgfs hffs hgp
      have hfmeta : f.metaOk = false := by
        have := (List.mem_filter.mp hf).2
        simp only [Bool.and_eq_true, Bool.not_eq_true'] at this
        exact this.2
      have hgmeta : g.metaOk = true := (mem_candidates.mp hgc).2.2.1
      rw [hgf, hfmeta] at hgmeta
      exact Bool.noConfusion hgmeta
  · intro hall
    have hok : hashedOk (candidates ⟨roots, ignores, m⟩ fsys.files) = [] := by
      rw [hashedOk, List.filter_eq_nil_iff]
      intro g hg
      simp [hall g ((multis_sublist _).subset hg)]
    constructor
    · intro r hr
      have hr' : r ∈ singletonRecords (candidates ⟨roots, ignores, m⟩ fsys.files) ++
          dedupRecords (candidates ⟨roots, ignores, m⟩ fsys.files) := hr
      rcases List.mem_append.mp hr' with h | h
      · rcases List.mem_map.mp h with ⟨g, _, rfl⟩
        rfl
      · rw [dedupRecords, dedupKeys, hok] at h
        simp at h
    · intro f hf
      have hmem : f ∈ (multis (candidates ⟨roots, ignores, m⟩ fsys.files)).filter
          (fun g => !g.readOk) :=
        List.mem_filter.mpr ⟨hf, by
          simp [hall f ((multis_sublist _).subset hf)]⟩
      have hpath : f.path ∈ (hashErrors (candidates ⟨roots, ignores, m⟩ fsys.files)).map
          Prod.fst := by
        rw [hashErrors_paths]
        exact List.mem_map.mpr ⟨f, hmem, rfl⟩
      have heq : (deduplicate_dirs ⟨roots, ignores, m⟩ fsys.files).2.map Prod.fst =
          (walkErrors ⟨roots, ignores, m⟩ fsys.files).map Prod.fst ++
            (hashErrors (candidates ⟨roots, ignores, m⟩ fsys.files)).map Prod.fst := by
        simp [deduplicate_dirs]
      rw [heq]
      exact List.mem_append.mpr (Or.inr hpath)

/-- Witness for C8: a run whose two identical candidates both fail to read
still completes, returning the full result pair. -/
theorem claim_C8_witness :
    rust_parse_u64 "0" = some 0 ∧
    roots_ok [["A"]] [["A"]] = true ∧
    PathsNodup [⟨["A", "x"], 3, [7, 7, 7], true, false⟩,
                ⟨["A", "y"], 3, [7, 7, 7], true, false⟩] ∧
    run_invocation [["A"]] [] "0"
        ⟨[["A"]], [⟨["A", "x"], 3, [7, 7, 7], true, false⟩,
                   ⟨["A", "y"], 3, [7, 7, 7], true, false⟩]⟩ =
      Except.ok (deduplicate_dirs ⟨[["A"]], [], 0⟩
        [⟨["A", "x"], 3, [7, 7, 7], true, false⟩,
         ⟨["A", "y"], 3, [7, 7, 7], true, false⟩]) :=
  ⟨by decide, by decide, by decide,
   (claim_C8 [["A"]] [] "0" 0
      ⟨[["A"]], [⟨["A", "x"], 3, [7, 7, 7], true, false⟩,
                 ⟨["A", "y"], 3, [7, 7, 7], true, false⟩]⟩
      (by decide) (by decide) (by decide)).1⟩

/-- Witness for C9: the minimum-size argument "-1" does not parse as a
non-negative integer, and the invocation fails outright. -/
theorem claim_C9_witness :
    (rust_parse_u64 "-1" = none ∨ roots_ok ([] : List FsPath) [["A"]] = false) ∧
    (run_invocation [["A"]] [] "-1" ⟨[], []⟩).isOk = false :=
  ⟨Or.inl (by decide),
   claim_C9 [["A"]] [] "-1" ⟨[], []⟩ (Or.inl (by decide))⟩

end Ddh
